import Mathlib

/-! Host-tool path policy table (`ui/build/paths/config.go`)

A shallow embedding of the `paths` package: the four-flag `PathConfig` record,
its five named presets, the literal `Configuration` table, the `init` hook that
patches the table on a darwin host, and the `GetConfig` accessor.

Go's `map[string]PathConfig` is embedded as an association list with
first-match lookup and in-place overwrite.  The order in which `range` visits a
map is unspecified in Go, so the loop of `init` takes the visiting order as an
explicit argument; results about the patched table are stated for every order
that is a permutation of the keys of the map being ranged over.
-/

namespace paths

/-- The policy record of one tool (`type PathConfig struct`). -/
structure PathConfig where
  /-- Whether to create the symlink in the new PATH for this tool. -/
  Symlink : Bool
  /-- Whether to log about usages of this tool. -/
  Log : Bool
  /-- Whether to exit with an error instead of invoking the underlying tool. -/
  Error : Bool
  /-- Whether a linux-specific prebuilt is used for this tool. -/
  LinuxOnlyPrebuilt : Bool
  deriving DecidableEq, Repr

/-- Preset `Allowed`; the field left out of the Go literal is the zero value `false`. -/
def Allowed : PathConfig :=
  { Symlink := true, Log := false, Error := false, LinuxOnlyPrebuilt := false }

/-- Preset `Forbidden`. -/
def Forbidden : PathConfig :=
  { Symlink := false, Log := true, Error := true, LinuxOnlyPrebuilt := false }

/-- Preset `Log`. -/
def Log : PathConfig :=
  { Symlink := true, Log := true, Error := false, LinuxOnlyPrebuilt := false }

/-- Preset `Missing`: the configuration used if the tool is not listed. -/
def Missing : PathConfig :=
  { Symlink := true, Log := true, Error := true, LinuxOnlyPrebuilt := false }

/-- Preset `LinuxOnlyPrebuilt`. -/
def LinuxOnlyPrebuilt : PathConfig :=
  { Symlink := false, Log := true, Error := true, LinuxOnlyPrebuilt := true }

/-- A Go `map[string]PathConfig`, as an association list. -/
abbrev Table := List (String × PathConfig)

/-- The keys of a table, in list order. -/
def keys (m : Table) : List String := m.map Prod.fst

/-- Map read `m[name]` in its two-result form: `some v` when the key is present. -/
def get? : Table → String → Option PathConfig
  | [], _ => none
  | (k, v) :: rest, name => if k = name then some v else get? rest name

/-- Map write `m[name] = v`: overwrites the entry of an existing key, adds a new one otherwise. -/
def set : Table → String → PathConfig → Table
  | [], name, v => [(name, v)]
  | (k, w) :: rest, name, v =>
    if k = name then (k, v) :: rest else (k, w) :: set rest name v

/-- The literal `var Configuration = map[string]PathConfig{...}`. -/
def Configuration : Table := [
  ("aarch64-linux-android-ar", Log),
  ("aarch64-linux-android-gcc", Log),
  ("aarch64-linux-android-ld", Log),
  ("aarch64-linux-android-nm", Log),
  ("aarch64-linux-android-objcopy", Log),
  ("aarch64-linux-android-objdump", Log),
  ("bash", Allowed),
  ("dd", Allowed),
  ("diff", Allowed),
  ("dlv", Allowed),
  ("expr", Allowed),
  ("fuser", Allowed),
  ("getopt", Allowed),
  ("git", Allowed),
  ("hexdump", Allowed),
  ("jar", Allowed),
  ("java", Allowed),
  ("javap", Allowed),
  ("ld.lld", Allowed),
  ("llvm-ar", Allowed),
  ("lsof", Allowed),
  ("openssl", Allowed),
  ("perl", Log),
  ("printf", Log),
  ("pstree", Allowed),
  ("rsync", Allowed),
  ("sh", Allowed),
  ("stubby", Allowed),
  ("tr", Allowed),
  ("unzip", Allowed),
  ("zip", Allowed),
  ("arm-linux-androidkernel-as", Allowed),
  ("arm-linux-androidkernel-ld", Allowed),
  ("aarch64-linux-gnu-as", Allowed),
  ("ar", Forbidden),
  ("as", Forbidden),
  ("cc", Forbidden),
  ("clang", Forbidden),
  ("clang++", Forbidden),
  ("gcc", Forbidden),
  ("g++", Forbidden),
  ("ld", Forbidden),
  ("ld.bfd", Forbidden),
  ("ld.gold", Forbidden),
  ("pkg-config", Forbidden),
  ("basename", LinuxOnlyPrebuilt),
  ("cat", LinuxOnlyPrebuilt),
  ("chmod", LinuxOnlyPrebuilt),
  ("cmp", Log),
  ("cp", Log),
  ("comm", LinuxOnlyPrebuilt),
  ("cut", LinuxOnlyPrebuilt),
  ("date", LinuxOnlyPrebuilt),
  ("dirname", Log),
  ("du", LinuxOnlyPrebuilt),
  ("echo", LinuxOnlyPrebuilt),
  ("egrep", LinuxOnlyPrebuilt),
  ("env", LinuxOnlyPrebuilt),
  ("getconf", LinuxOnlyPrebuilt),
  ("grep", LinuxOnlyPrebuilt),
  ("head", LinuxOnlyPrebuilt),
  ("hostname", LinuxOnlyPrebuilt),
  ("id", LinuxOnlyPrebuilt),
  ("ln", LinuxOnlyPrebuilt),
  ("ls", LinuxOnlyPrebuilt),
  ("md5sum", LinuxOnlyPrebuilt),
  ("mkdir", Log),
  ("mktemp", LinuxOnlyPrebuilt),
  ("mv", LinuxOnlyPrebuilt),
  ("od", LinuxOnlyPrebuilt),
  ("paste", Log),
  ("pgrep", LinuxOnlyPrebuilt),
  ("pkill", LinuxOnlyPrebuilt),
  ("ps", LinuxOnlyPrebuilt),
  ("pwd", Log),
  ("readlink", LinuxOnlyPrebuilt),
  ("rm", LinuxOnlyPrebuilt),
  ("rmdir", Log),
  ("sed", LinuxOnlyPrebuilt),
  ("seq", LinuxOnlyPrebuilt),
  ("setsid", LinuxOnlyPrebuilt),
  ("sha1sum", LinuxOnlyPrebuilt),
  ("sha256sum", LinuxOnlyPrebuilt),
  ("sha512sum", LinuxOnlyPrebuilt),
  ("sleep", LinuxOnlyPrebuilt),
  ("sort", LinuxOnlyPrebuilt),
  ("stat", LinuxOnlyPrebuilt),
  ("tail", Log),
  ("tar", LinuxOnlyPrebuilt),
  ("tee", LinuxOnlyPrebuilt),
  ("timeout", LinuxOnlyPrebuilt),
  ("touch", Log),
  ("true", LinuxOnlyPrebuilt),
  ("uname", LinuxOnlyPrebuilt),
  ("uniq", LinuxOnlyPrebuilt),
  ("unix2dos", LinuxOnlyPrebuilt),
  ("wc", LinuxOnlyPrebuilt),
  ("whoami", LinuxOnlyPrebuilt),
  ("which", LinuxOnlyPrebuilt),
  ("xxd", Log)]

/-- One iteration of the loop body of `init` at key `name`: `config` is the
record the map holds for `name` when the iteration reaches it. -/
def patchEntry (m : Table) (name : String) : Table :=
  match get? m name with
  | some config => if config.LinuxOnlyPrebuilt then set m name Allowed else m
  | none => m

/-- The loop `for name, config := range Configuration { ... }` of `init`,
visiting the keys in the given order. -/
def rangeLoop : List String → Table → Table
  | [], m => m
  | name :: rest, m => rangeLoop rest (patchEntry m name)

/-- An order in which `range` may visit a map.  Go leaves the order unspecified
but produces every entry exactly once when, as here, the loop body adds and
removes no key: `visit m` is a permutation of the keys of `m`. -/
structure RangeOrder where
  /-- The sequence of keys produced when ranging over `m`. -/
  visit : Table → List String
  /-- Every key of `m` is produced exactly once. -/
  perm : ∀ m : Table, (visit m).Perm (keys m)

/-- Visiting the entries in the order they are stored. -/
def storedOrder : RangeOrder := ⟨keys, fun _ => List.Perm.refl _⟩

/-- Visiting the entries in the reverse of the order they are stored. -/
def reverseOrder : RangeOrder := ⟨fun m => (keys m).reverse, fun m => List.reverse_perm (keys m)⟩

/-- The two map writes at the start of the darwin branch of `init`. -/
def addDarwinTools (m : Table) : Table :=
  set (set m "sw_vers" Allowed) "xcrun" Allowed

/-- The hook `func init()`, as a function of `runtime.GOOS`, of the order in
which `range` visits the map, and of the table it starts from. -/
def init (goos : String) (r : RangeOrder) (m : Table) : Table :=
  if goos = "darwin" then
    let m₁ := addDarwinTools m
    rangeLoop (r.visit m₁) m₁
  else m

/-- The accessor `func GetConfig(name string) PathConfig`, reading the package
variable `Configuration` in its current state `m`. -/
def GetConfig (m : Table) (name : String) : PathConfig :=
  match get? m name with
  | some config => config
  | none => Missing

/-- The state of the package variable `Configuration` once `init` has run on
host `goos`: the table every call of `GetConfig` reads. -/
def ready (goos : String) (r : RangeOrder) : Table :=
  init goos r Configuration

/-- What one loop iteration of `init` does to a record it visits. -/
def relax (c : PathConfig) : PathConfig :=
  if c.LinuxOnlyPrebuilt then Allowed else c

/-! ## Map reads and writes -/

theorem get?_set (m : Table) (k : String) (v : PathConfig) (name : String) :
    get? (set m k v) name = if k = name then some v else get? m name := by
  induction m with
  | nil => simp [set, get?]
  | cons e rest ih =>
    obtain ⟨k', w⟩ := e
    by_cases hk : k' = k
    · subst hk
      by_cases hn : k' = name <;> simp [set, get?, hn]
    · by_cases hn : k' = name
      · subst hn
        have hk' : ¬ k = k' := fun h => hk h.symm
        simp [set, get?, hk, hk']
      · simp [set, get?, hk, hn, ih]

theorem get?_eq_none_iff (m : Table) (name : String) :
    get? m name = none ↔ name ∉ keys m := by
  induction m with
  | nil => simp [get?, keys]
  | cons e rest ih =>
    obtain ⟨k, w⟩ := e
    by_cases hk : k = name
    · simp [get?, keys, hk]
    · have hk' : ¬ name = k := fun h => hk h.symm
      simpa [get?, keys, hk, hk'] using ih

theorem mem_keys_iff (m : Table) (name : String) :
    name ∈ keys m ↔ ∃ c, get? m name = some c := by
  by_cases h : name ∈ keys m
  · have hne : get? m name ≠ none := fun hn => (get?_eq_none_iff m name).1 hn h
    cases hg : get? m name with
    | none => exact absurd hg hne
    | some c => simp [h]
  · have hn := (get?_eq_none_iff m name).2 h
    simp [h, hn]

theorem mem_keys_set (m : Table) (k : String) (v : PathConfig) (name : String) :
    name ∈ keys (set m k v) ↔ name = k ∨ name ∈ keys m := by
  rw [mem_keys_iff, mem_keys_iff, get?_set]
  by_cases hk : k = name
  · simp [hk]
  · have hk' : ¬ name = k := fun h => hk h.symm
    simp [hk, hk']

/-! ## The loop of `init` -/

theorem get?_patchEntry (m : Table) (k name : String) :
    get? (patchEntry m k) name =
      if k = name then (get? m name).map relax else get? m name := by
  unfold patchEntry
  by_cases hk : k = name
  · subst hk
    cases hg : get? m k with
    | none => simp [hg]
    | some c =>
      by_cases hc : c.LinuxOnlyPrebuilt = true
      · simp [hc, get?_set, relax]
      · simp [hc, hg, relax]
  · cases hg : get? m k with
    | none => simp [hk]
    | some c =>
      by_cases hc : c.LinuxOnlyPrebuilt = true
      · simp [hc, get?_set, hk]
      · simp [hc, hk]

theorem relax_relax (c : PathConfig) : relax (relax c) = relax c := by
  unfold relax
  by_cases hc : c.LinuxOnlyPrebuilt = true
  · simp [hc, Allowed]
  · simp [hc]

theorem get?_rangeLoop (order : List String) (m : Table) (name : String) :
    get? (rangeLoop order m) name =
      if name ∈ order then (get? m name).map relax else get? m name := by
  induction order generalizing m with
  | nil => simp [rangeLoop]
  | cons k rest ih =>
    rw [rangeLoop, ih, get?_patchEntry]
    by_cases hk : k = name
    · subst hk
      by_cases hr : k ∈ rest
      · cases hg : get? m k with
        | none => simp [hr]
        | some c => simp [hr, relax_relax]
      · simp [hr]
    · have hk' : ¬ name = k := fun h => hk h.symm
      simp [hk, hk']

theorem mem_keys_patchEntry (m : Table) (k name : String) :
    name ∈ keys (patchEntry m k) ↔ name ∈ keys m := by
  rw [mem_keys_iff, mem_keys_iff, get?_patchEntry]
  by_cases hk : k = name
  · cases hg : get? m name <;> simp [hk]
  · simp [hk]

theorem mem_keys_rangeLoop (order : List String) (m : Table) (name : String) :
    name ∈ keys (rangeLoop order m) ↔ name ∈ keys m := by
  rw [mem_keys_iff, mem_keys_iff, get?_rangeLoop]
  by_cases hk : name ∈ order
  · cases hg : get? m name <;> simp [hk]
  · simp [hk]

/-- Ranging over a map in any valid order relaxes every record of the map. -/
theorem get?_rangeLoop_visit (r : RangeOrder) (m : Table) (name : String) :
    get? (rangeLoop (r.visit m) m) name = (get? m name).map relax := by
  rw [get?_rangeLoop]
  by_cases hk : name ∈ r.visit m
  · simp [hk]
  · have hn : name ∉ keys m := fun h => hk ((r.perm m).mem_iff.2 h)
    simp [hk, (get?_eq_none_iff m name).2 hn]

theorem get?_addDarwinTools (m : Table) (name : String) :
    get? (addDarwinTools m) name =
      if name = "xcrun" ∨ name = "sw_vers" then some Allowed else get? m name := by
  unfold addDarwinTools
  rw [get?_set, get?_set]
  by_cases h1 : "xcrun" = name
  · simp [h1.symm]
  · have h1' : ¬ name = "xcrun" := fun h => h1 h.symm
    by_cases h2 : "sw_vers" = name
    · simp [h2.symm]
    · have h2' : ¬ name = "sw_vers" := fun h => h2 h.symm
      simp [h1, h1', h2, h2']

theorem get?_init_darwin (r : RangeOrder) (m : Table) (name : String) :
    get? (init "darwin" r m) name =
      if name = "xcrun" ∨ name = "sw_vers" then some Allowed else (get? m name).map relax := by
  have h : init "darwin" r m = rangeLoop (r.visit (addDarwinTools m)) (addDarwinTools m) := by
    simp [init]
  rw [h, get?_rangeLoop_visit, get?_addDarwinTools]
  by_cases hn : name = "xcrun" ∨ name = "sw_vers"
  · simp [hn, relax, Allowed]
  · simp [hn]

theorem init_of_ne_darwin (goos : String) (r : RangeOrder) (m : Table) (h : goos ≠ "darwin") :
    init goos r m = m := by
  simp [init, h]

theorem getConfig_eq_of_get? {m : Table} {name : String} {c : PathConfig}
    (h : get? m name = some c) : GetConfig m name = c := by
  simp [GetConfig, h]

theorem getConfig_eq_of_get?_none {m : Table} {name : String}
    (h : get? m name = none) : GetConfig m name = Missing := by
  simp [GetConfig, h]

theorem mem_keys_init_darwin (r : RangeOrder) (m : Table) (name : String) :
    name ∈ keys (init "darwin" r m) ↔ name ∈ keys m ∨ name = "sw_vers" ∨ name = "xcrun" := by
  rw [mem_keys_iff, mem_keys_iff, get?_init_darwin]
  by_cases h1 : name = "xcrun"
  · simp [h1]
  · by_cases h2 : name = "sw_vers"
    · simp [h2]
    · cases hg : get? m name <;> simp [h1, h2]

/-- The two darwin-only names are not keys of the literal table. -/
theorem darwin_tools_not_literal :
    get? Configuration "sw_vers" = none ∧ get? Configuration "xcrun" = none := by
  constructor <;> decide

/-- A literal entry without the `LinuxOnlyPrebuilt` flag is read back unchanged on every host. -/
theorem get?_ready_of_unflagged (goos : String) (r : RangeOrder) {name : String} {c : PathConfig}
    (h : get? Configuration name = some c) (hf : c.LinuxOnlyPrebuilt = false) :
    get? (ready goos r) name = some c := by
  by_cases hd : goos = "darwin"
  · subst hd
    have h1 : ¬ name = "xcrun" := by
      rintro rfl; rw [darwin_tools_not_literal.2] at h; cases h
    have h2 : ¬ name = "sw_vers" := by
      rintro rfl; rw [darwin_tools_not_literal.1] at h; cases h
    rw [ready, get?_init_darwin]
    simp [h1, h2, h, relax, hf]
  · rw [ready, init_of_ne_darwin goos r _ hd]; exact h

/-- A literal entry with the `LinuxOnlyPrebuilt` flag is read back as `Allowed` on darwin. -/
theorem get?_ready_darwin_of_flagged (r : RangeOrder) {name : String} {c : PathConfig}
    (h : get? Configuration name = some c) (hf : c.LinuxOnlyPrebuilt = true) :
    get? (ready "darwin" r) name = some Allowed := by
  rw [ready, get?_init_darwin]
  by_cases hn : name = "xcrun" ∨ name = "sw_vers"
  · simp [hn]
  · simp [hn, h, relax, hf]

/-! ## The claims -/

/-- C1: on every host, `GetConfig` of a name that is not a key of the table
after `init` is `Missing`, the record with `Symlink`, `Log` and `Error` set and
`LinuxOnlyPrebuilt` clear.  The keys after `init` are the literal keys, plus
`sw_vers` and `xcrun` exactly when the host is darwin.  The empty string,
`GIT` and `not-a-real-tool` are such absent names on every host. -/
theorem getConfig_absent_key (goos : String) (r : RangeOrder) (name : String) :
    (name ∈ keys (ready goos r) ↔
      name ∈ keys Configuration ∨ (goos = "darwin" ∧ (name = "sw_vers" ∨ name = "xcrun"))) ∧
    (name ∉ keys (ready goos r) → GetConfig (ready goos r) name = Missing) ∧
    Missing = ⟨true, true, true, false⟩ ∧
    GetConfig (ready goos r) "" = Missing ∧
    GetConfig (ready goos r) "GIT" = Missing ∧
    GetConfig (ready goos r) "not-a-real-tool" = Missing := by
  have hkeys : ∀ n : String, n ∈ keys (ready goos r) ↔
      n ∈ keys Configuration ∨ (goos = "darwin" ∧ (n = "sw_vers" ∨ n = "xcrun")) := by
    intro n
    by_cases hd : goos = "darwin"
    · subst hd
      rw [ready, mem_keys_init_darwin]
      simp
    · rw [ready, init_of_ne_darwin goos r _ hd]
      simp [hd]
  have habs : ∀ n : String, n ∉ keys (ready goos r) → GetConfig (ready goos r) n = Missing :=
    fun n hn => getConfig_eq_of_get?_none ((get?_eq_none_iff _ n).2 hn)
  refine ⟨hkeys name, habs name, rfl, habs _ ?_, habs _ ?_, habs _ ?_⟩
  · rw [hkeys]
    have h0 : "" ∉ keys Configuration := by decide
    have h1 : ¬ "" = "sw_vers" := by decide
    have h2 : ¬ "" = "xcrun" := by decide
    simp [h0, h1, h2]
  · rw [hkeys]
    have h0 : "GIT" ∉ keys Configuration := by decide
    have h1 : ¬ "GIT" = "sw_vers" := by decide
    have h2 : ¬ "GIT" = "xcrun" := by decide
    simp [h0, h1, h2]
  · rw [hkeys]
    have h0 : "not-a-real-tool" ∉ keys Configuration := by decide
    have h1 : ¬ "not-a-real-tool" = "sw_vers" := by decide
    have h2 : ¬ "not-a-real-tool" = "xcrun" := by decide
    simp [h0, h1, h2]

/-- Witness of C1 at the absent name `GIT` on a linux host. -/
theorem getConfig_absent_key_witness :
    "GIT" ∉ keys (ready "linux" storedOrder) ∧
      GetConfig (ready "linux" storedOrder) "GIT" = Missing :=
  ⟨by decide, (getConfig_absent_key "linux" storedOrder "GIT").2.1 (by decide)⟩

/-- C2: on every host, for a name that is a key of the table after `init`,
`GetConfig` returns exactly the record stored under that key.  Off darwin that
record is the one declared in the literal; on darwin it is the patched record:
`Allowed` where the literal record carries the `LinuxOnlyPrebuilt` flag, the
literal record where it does not, and `Allowed` for the two added keys. -/
theorem getConfig_present_key (goos : String) (r : RangeOrder) (name : String)
    (h : name ∈ keys (ready goos r)) :
    get? (ready goos r) name = some (GetConfig (ready goos r) name) ∧
    (goos ≠ "darwin" → get? Configuration name = some (GetConfig (ready goos r) name)) ∧
    (goos = "darwin" → GetConfig (ready goos r) name =
      match get? Configuration name with
      | some c => if c.LinuxOnlyPrebuilt then Allowed else c
      | none => Allowed) := by
  obtain ⟨c, hc⟩ := (mem_keys_iff _ _).1 h
  have hg : GetConfig (ready goos r) name = c := getConfig_eq_of_get? hc
  refine ⟨by rw [hg, hc], ?_, ?_⟩
  · intro hd
    rw [hg, ← hc, ready, init_of_ne_darwin goos r _ hd]
  · intro hd
    subst hd
    rw [hg]
    rw [ready, get?_init_darwin] at hc
    by_cases hn : name = "xcrun" ∨ name = "sw_vers"
    · have hlit : get? Configuration name = none := by
        rcases hn with rfl | rfl
        · exact darwin_tools_not_literal.2
        · exact darwin_tools_not_literal.1
      simp [hn] at hc
      simp [hlit, hc]
    · cases hl : get? Configuration name with
      | none => simp [hn, hl] at hc
      | some c₀ =>
        simp [hn, hl, relax] at hc
        simp [← hc]

/-- Witness of C2 at the key `ls` on a darwin host visiting the map in reverse order. -/
theorem getConfig_present_key_witness :
    "ls" ∈ keys (ready "darwin" reverseOrder) ∧
      get? (ready "darwin" reverseOrder) "ls" =
        some (GetConfig (ready "darwin" reverseOrder) "ls") ∧
      GetConfig (ready "darwin" reverseOrder) "ls" = Allowed :=
  have h : "ls" ∈ keys (ready "darwin" reverseOrder) :=
    (mem_keys_init_darwin reverseOrder Configuration "ls").2 (Or.inl (by decide))
  ⟨h, (getConfig_present_key "darwin" reverseOrder "ls" h).1,
    (getConfig_present_key "darwin" reverseOrder "ls" h).2.2 rfl⟩

/-- C3: on a darwin host, whatever order the loop of `init` visits the map in,
every key whose record in the literal table has `LinuxOnlyPrebuilt` set holds
exactly `Allowed` after `init`: `Symlink` set, the other three flags clear. -/
theorem darwin_flagged_becomes_allowed (r : RangeOrder) (name : String) (c : PathConfig)
    (h : get? Configuration name = some c) (hf : c.LinuxOnlyPrebuilt = true) :
    get? (ready "darwin" r) name = some Allowed ∧
    GetConfig (ready "darwin" r) name = ⟨true, false, false, false⟩ := by
  have hg := get?_ready_darwin_of_flagged r h hf
  exact ⟨hg, getConfig_eq_of_get? hg⟩

/-- Witness of C3 at the key `ls`, visiting the map in reverse order. -/
theorem darwin_flagged_becomes_allowed_witness :
    get? Configuration "ls" = some LinuxOnlyPrebuilt ∧
      PathConfig.LinuxOnlyPrebuilt LinuxOnlyPrebuilt = true ∧
      get? (ready "darwin" reverseOrder) "ls" = some Allowed :=
  ⟨by decide, rfl,
    (darwin_flagged_becomes_allowed reverseOrder "ls" LinuxOnlyPrebuilt (by decide) rfl).1⟩

/-- C4: on a darwin host every key of the literal table whose record has
`LinuxOnlyPrebuilt` clear keeps exactly that record after `init`; a name whose
entry differs between the literal table and the table after `init` is either a
literal key with the flag set or one of the two added keys `sw_vers` and
`xcrun`, which are absent before and `Allowed` after.  So `cp`, `mkdir` and
`tail` stay `Log` and `clang` stays `Forbidden`. -/
theorem darwin_patch_frame (r : RangeOrder) (name : String) :
    (∀ c, get? Configuration name = some c → c.LinuxOnlyPrebuilt = false →
      get? (ready "darwin" r) name = some c) ∧
    (get? (ready "darwin" r) name ≠ get? Configuration name →
      (∃ c, get? Configuration name = some c ∧ c.LinuxOnlyPrebuilt = true) ∨
      ((name = "sw_vers" ∨ name = "xcrun") ∧ get? Configuration name = none ∧
        get? (ready "darwin" r) name = some Allowed)) ∧
    GetConfig (ready "darwin" r) "cp" = Log ∧
    GetConfig (ready "darwin" r) "mkdir" = Log ∧
    GetConfig (ready "darwin" r) "tail" = Log ∧
    GetConfig (ready "darwin" r) "clang" = Forbidden := by
  have hex : ∀ (n : String) (c : PathConfig), get? Configuration n = some c →
      c.LinuxOnlyPrebuilt = false → GetConfig (ready "darwin" r) n = c :=
    fun n c h hf => getConfig_eq_of_get? (get?_ready_of_unflagged "darwin" r h hf)
  refine ⟨fun c h hf => get?_ready_of_unflagged "darwin" r h hf, ?_,
    hex _ _ (by decide) rfl, hex _ _ (by decide) rfl, hex _ _ (by decide) rfl,
    hex _ _ (by decide) rfl⟩
  intro hne
  by_cases hn : name = "xcrun" ∨ name = "sw_vers"
  · right
    refine ⟨hn.symm, ?_, ?_⟩
    · rcases hn with rfl | rfl
      · exact darwin_tools_not_literal.2
      · exact darwin_tools_not_literal.1
    · rw [ready, get?_init_darwin]; simp [hn]
  · left
    cases hl : get? Configuration name with
    | none =>
      exfalso; apply hne
      rw [ready, get?_init_darwin]; simp [hn, hl]
    | some c =>
      refine ⟨c, rfl, ?_⟩
      by_contra hf
      have hf' : c.LinuxOnlyPrebuilt = false := by simpa using hf
      exact hne ((get?_ready_of_unflagged "darwin" r hl hf').trans hl.symm)

/-- Witness of C4 at the key `cp`, whose literal record `Log` has the flag clear. -/
theorem darwin_patch_frame_witness :
    get? Configuration "cp" = some Log ∧ PathConfig.LinuxOnlyPrebuilt Log = false ∧
      get? (ready "darwin" storedOrder) "cp" = some Log :=
  ⟨by decide, rfl, (darwin_patch_frame storedOrder "cp").1 Log (by decide) rfl⟩

/-- C5: `init` is idempotent on every host: run a second time, with any visiting
order, on the table a first run produced from the literal, it leaves the key
set unchanged and every key with the same record, so every `GetConfig` answer
is the same as after one run. -/
theorem init_idempotent (goos : String) (r₁ r₂ : RangeOrder) :
    (∀ name, name ∈ keys (init goos r₂ (init goos r₁ Configuration)) ↔
      name ∈ keys (init goos r₁ Configuration)) ∧
    (∀ name, get? (init goos r₂ (init goos r₁ Configuration)) name =
      get? (init goos r₁ Configuration) name) ∧
    (∀ name, GetConfig (init goos r₂ (init goos r₁ Configuration)) name =
      GetConfig (init goos r₁ Configuration) name) := by
  have hget : ∀ name, get? (init goos r₂ (init goos r₁ Configuration)) name =
      get? (init goos r₁ Configuration) name := by
    intro name
    by_cases hd : goos = "darwin"
    · subst hd
      rw [get?_init_darwin r₂, get?_init_darwin r₁]
      by_cases hn : name = "xcrun" ∨ name = "sw_vers"
      · simp [hn]
      · cases hl : get? Configuration name with
        | none => simp [hn]
        | some c => simp [hn, relax_relax]
    · rw [init_of_ne_darwin goos r₂ _ hd]
  refine ⟨fun name => ?_, hget, fun name => ?_⟩
  · rw [mem_keys_iff, mem_keys_iff, hget]
  · simp [GetConfig, hget]

/-- C6: on every host other than darwin `init` applies no patch: the table
after `init` is the literal table, with the same keys and records, and
`GetConfig` agrees with the literal table for every name. -/
theorem init_no_patch_off_darwin (goos : String) (r : RangeOrder) (h : goos ≠ "darwin") :
    ready goos r = Configuration ∧
    (∀ name, name ∈ keys (ready goos r) ↔ name ∈ keys Configuration) ∧
    (∀ name, get? (ready goos r) name = get? Configuration name) ∧
    (∀ name, GetConfig (ready goos r) name = GetConfig Configuration name) := by
  have he : ready goos r = Configuration := init_of_ne_darwin goos r _ h
  rw [he]
  exact ⟨rfl, fun _ => Iff.rfl, fun _ => rfl, fun _ => rfl⟩

/-- Witness of C6 on a linux host. -/
theorem init_no_patch_off_darwin_witness :
    "linux" ≠ "darwin" ∧ ready "linux" storedOrder = Configuration :=
  ⟨by decide, (init_no_patch_off_darwin "linux" storedOrder (by decide)).1⟩

/-- C7: `GetConfig` of `ls` is the `LinuxOnlyPrebuilt` preset (`Symlink` clear,
`Log`, `Error` and `LinuxOnlyPrebuilt` set) on every host other than darwin,
and is `Allowed` (`Symlink` set, the other three flags clear) on darwin. -/
theorem getConfig_ls :
    (∀ (goos : String) (r : RangeOrder), goos ≠ "darwin" →
      GetConfig (ready goos r) "ls" = LinuxOnlyPrebuilt) ∧
    LinuxOnlyPrebuilt = ⟨false, true, true, true⟩ ∧
    (∀ r : RangeOrder, GetConfig (ready "darwin" r) "ls" = Allowed) ∧
    Allowed = ⟨true, false, false, false⟩ := by
  refine ⟨fun goos r hd => ?_, rfl, fun r => ?_, rfl⟩
  · rw [ready, init_of_ne_darwin goos r _ hd]; decide
  · exact getConfig_eq_of_get?
      (get?_ready_darwin_of_flagged r (c := LinuxOnlyPrebuilt) (by decide) rfl)

/-- Witness of C7 on a linux host. -/
theorem getConfig_ls_witness :
    "linux" ≠ "darwin" ∧ GetConfig (ready "linux" storedOrder) "ls" = LinuxOnlyPrebuilt :=
  ⟨by decide, getConfig_ls.1 "linux" storedOrder (by decide)⟩

/-- C8: on a darwin host `GetConfig` of `sw_vers` and of `xcrun` is `Allowed`;
on every other host both are `Missing`, neither name being a key of the literal
table. -/
theorem getConfig_darwin_tools :
    (∀ r : RangeOrder, GetConfig (ready "darwin" r) "sw_vers" = Allowed ∧
      GetConfig (ready "darwin" r) "xcrun" = Allowed) ∧
    (∀ (goos : String) (r : RangeOrder), goos ≠ "darwin" →
      GetConfig (ready goos r) "sw_vers" = Missing ∧
      GetConfig (ready goos r) "xcrun" = Missing) ∧
    "sw_vers" ∉ keys Configuration ∧ "xcrun" ∉ keys Configuration := by
  refine ⟨fun r => ⟨?_, ?_⟩, fun goos r hd => ?_, by decide, by decide⟩
  · apply getConfig_eq_of_get?
    rw [ready, get?_init_darwin]; simp
  · apply getConfig_eq_of_get?
    rw [ready, get?_init_darwin]; simp
  · rw [ready, init_of_ne_darwin goos r _ hd]
    exact ⟨getConfig_eq_of_get?_none darwin_tools_not_literal.1,
      getConfig_eq_of_get?_none darwin_tools_not_literal.2⟩

/-- Witness of C8 on a linux host. -/
theorem getConfig_darwin_tools_witness :
    "linux" ≠ "darwin" ∧ GetConfig (ready "linux" storedOrder) "xcrun" = Missing :=
  ⟨by decide, (getConfig_darwin_tools.2.1 "linux" storedOrder (by decide)).2⟩

/-- C9: on every host, darwin included, `GetConfig` of each host-toolchain name
`ar`, `as`, `cc`, `clang`, `clang++`, `gcc`, `g++`, `ld`, `ld.bfd`, `ld.gold`
and `pkg-config` is `Forbidden`: `Symlink` clear, `Log` and `Error` set,
`LinuxOnlyPrebuilt` clear. -/
theorem getConfig_host_toolchain (goos : String) (r : RangeOrder) (name : String)
    (h : name ∈ ["ar", "as", "cc", "clang", "clang++", "gcc", "g++", "ld", "ld.bfd",
      "ld.gold", "pkg-config"]) :
    GetConfig (ready goos r) name = Forbidden ∧ Forbidden = ⟨false, true, true, false⟩ := by
  have hlit : get? Configuration name = some Forbidden := by
    simp only [List.mem_cons, List.mem_singleton, List.not_mem_nil, or_false] at h
    rcases h with rfl | rfl | rfl | rfl | rfl | rfl | rfl | rfl | rfl | rfl | rfl <;> decide
  exact ⟨getConfig_eq_of_get? (get?_ready_of_unflagged goos r hlit rfl), rfl⟩

/-- Witness of C9 at `clang` on a darwin host. -/
theorem getConfig_host_toolchain_witness :
    GetConfig (ready "darwin" storedOrder) "clang" = Forbidden :=
  (getConfig_host_toolchain "darwin" storedOrder "clang" (by decide)).1

/-- C10: on every host `GetConfig` of `git` is `Allowed`: `Symlink` set, `Log`,
`Error` and `LinuxOnlyPrebuilt` clear. -/
theorem getConfig_git (goos : String) (r : RangeOrder) :
    GetConfig (ready goos r) "git" = Allowed ∧ Allowed = ⟨true, false, false, false⟩ :=
  ⟨getConfig_eq_of_get? (get?_ready_of_unflagged goos r (c := Allowed) (by decide) rfl), rfl⟩

/-! ## Records and keys of the table after `init` -/

theorem mem_of_get? {m : Table} {name : String} {c : PathConfig}
    (h : get? m name = some c) : (name, c) ∈ m := by
  induction m with
  | nil => simp [get?] at h
  | cons e rest ih =>
    obtain ⟨k, w⟩ := e
    by_cases hk : k = name
    · subst hk
      simp [get?] at h
      simp [h]
    · simp [get?, hk] at h
      exact List.mem_cons_of_mem _ (ih h)

/-- Every record of the literal table is one of four presets. -/
theorem literal_records :
    ∀ e ∈ Configuration,
      e.2 = Allowed ∨ e.2 = Forbidden ∨ e.2 = Log ∨ e.2 = LinuxOnlyPrebuilt := by
  decide

/-- Every key of the literal table is non-empty and has no path separator. -/
theorem literal_keys_bare :
    ∀ k ∈ keys Configuration, k ≠ "" ∧ '/' ∉ k.toList := by
  decide

theorem literal_record_of_get? {name : String} {c : PathConfig}
    (h : get? Configuration name = some c) :
    c = Allowed ∨ c = Forbidden ∨ c = Log ∨ c = LinuxOnlyPrebuilt :=
  literal_records (name, c) (mem_of_get? h)

theorem mem_keys_ready (goos : String) (r : RangeOrder) (name : String) :
    name ∈ keys (ready goos r) ↔
      name ∈ keys Configuration ∨ (goos = "darwin" ∧ (name = "sw_vers" ∨ name = "xcrun")) := by
  by_cases hd : goos = "darwin"
  · subst hd
    rw [ready, mem_keys_init_darwin]
    simp
  · rw [ready, init_of_ne_darwin goos r _ hd]
    simp [hd]

/-- A record stored after `init` is a literal record (off darwin), or on darwin
either `Allowed` or a literal record without the flag. -/
theorem ready_record_cases (goos : String) (r : RangeOrder) {name : String} {c : PathConfig}
    (h : get? (ready goos r) name = some c) :
    (goos ≠ "darwin" ∧ get? Configuration name = some c) ∨
    (goos = "darwin" ∧ (c = Allowed ∨
      (get? Configuration name = some c ∧ c.LinuxOnlyPrebuilt = false))) := by
  by_cases hd : goos = "darwin"
  · subst hd
    right
    refine ⟨rfl, ?_⟩
    rw [ready, get?_init_darwin] at h
    by_cases hn : name = "xcrun" ∨ name = "sw_vers"
    · simp [hn] at h
      exact Or.inl h.symm
    · cases hl : get? Configuration name with
      | none => simp [hn, hl] at h
      | some c₀ =>
        simp only [hn, hl, if_false, Option.map_some', Option.some.injEq] at h
        by_cases hf : c₀.LinuxOnlyPrebuilt = true
        · left; rw [← h]; simp [relax, hf]
        · have hf' : c₀.LinuxOnlyPrebuilt = false := by simpa using hf
          right
          have hc : c₀ = c := by rw [← h]; simp [relax, hf']
          subst hc
          exact ⟨rfl, hf'⟩
  · left
    rw [ready, init_of_ne_darwin goos r _ hd] at h
    exact ⟨hd, h⟩

/-- Every record stored after `init`, on every host, is one of four presets. -/
theorem ready_record_preset (goos : String) (r : RangeOrder) {name : String} {c : PathConfig}
    (h : get? (ready goos r) name = some c) :
    c = Allowed ∨ c = Forbidden ∨ c = Log ∨ c = LinuxOnlyPrebuilt := by
  rcases ready_record_cases goos r h with ⟨_, hl⟩ | ⟨_, ha | ⟨hl, _⟩⟩
  · exact literal_record_of_get? hl
  · exact Or.inl ha
  · exact literal_record_of_get? hl

/-- C11: on every host, an entry of the table after `init` whose
`LinuxOnlyPrebuilt` flag is set has `Symlink` clear and `Log` and `Error` set:
it is exactly the `LinuxOnlyPrebuilt` preset, and no entry carries the flag on
another base record. -/
theorem flagged_entry_is_preset (goos : String) (r : RangeOrder) (name : String)
    (c : PathConfig) (h : get? (ready goos r) name = some c)
    (hf : c.LinuxOnlyPrebuilt = true) :
    c.Symlink = false ∧ c.Log = true ∧ c.Error = true ∧ c = LinuxOnlyPrebuilt := by
  rcases ready_record_preset goos r h with rfl | rfl | rfl | rfl
  · simp [Allowed] at hf
  · simp [Forbidden] at hf
  · simp [Log] at hf
  · exact ⟨rfl, rfl, rfl, rfl⟩

/-- Witness of C11 at the entry `ls` on a linux host. -/
theorem flagged_entry_is_preset_witness :
    get? (ready "linux" storedOrder) "ls" = some LinuxOnlyPrebuilt ∧
      PathConfig.LinuxOnlyPrebuilt LinuxOnlyPrebuilt = true ∧
      PathConfig.Symlink LinuxOnlyPrebuilt = false :=
  ⟨by decide, rfl,
    (flagged_entry_is_preset "linux" storedOrder "ls" LinuxOnlyPrebuilt (by decide) rfl).1⟩

/-- C12: on every host, every key of the table after `init`, the two keys added
on darwin included, is a non-empty bare executable name: it is not the empty
string and contains no `/` path separator. -/
theorem keys_are_bare_names (goos : String) (r : RangeOrder) (name : String)
    (h : name ∈ keys (ready goos r)) :
    name ≠ "" ∧ '/' ∉ name.toList := by
  rcases (mem_keys_ready goos r name).1 h with hl | ⟨_, rfl | rfl⟩
  · exact literal_keys_bare name hl
  · decide
  · decide

/-- Witness of C12 at the key `xcrun` added on a darwin host. -/
theorem keys_are_bare_names_witness :
    "xcrun" ∈ keys (ready "darwin" storedOrder) ∧ "xcrun" ≠ "" ∧ '/' ∉ "xcrun".toList :=
  have h : "xcrun" ∈ keys (ready "darwin" storedOrder) :=
    (mem_keys_ready "darwin" storedOrder "xcrun").2 (Or.inr ⟨rfl, Or.inr rfl⟩)
  ⟨h, keys_are_bare_names "darwin" storedOrder "xcrun" h⟩

/-- C13: on every host no entry of the table after `init` stores `Missing`, so
`GetConfig` of a name is `Missing` if and only if the name is not a key of the
table after `init`. -/
theorem getConfig_missing_iff (goos : String) (r : RangeOrder) (name : String) :
    (∀ c, get? (ready goos r) name = some c → c ≠ Missing) ∧
    (GetConfig (ready goos r) name = Missing ↔ name ∉ keys (ready goos r)) := by
  have hne : ∀ c, get? (ready goos r) name = some c → c ≠ Missing := by
    intro c hc
    rcases ready_record_preset goos r hc with rfl | rfl | rfl | rfl <;> decide
  refine ⟨hne, ?_, fun hn => getConfig_eq_of_get?_none ((get?_eq_none_iff _ name).2 hn)⟩
  intro hm hk
  obtain ⟨c, hc⟩ := (mem_keys_iff _ _).1 hk
  exact hne c hc ((getConfig_eq_of_get? hc).symm.trans hm)

/-- Witness of C13 at the entry `git` on a linux host. -/
theorem getConfig_missing_iff_witness :
    get? (ready "linux" storedOrder) "git" = some Allowed ∧ Allowed ≠ Missing :=
  ⟨by decide, (getConfig_missing_iff "linux" storedOrder "git").1 Allowed (by decide)⟩

/-- C14: the darwin patch only relaxes policy.  For every name, against any
non-darwin host: if `GetConfig` on darwin has `Error` set then it has `Error`
set on the other host, and if `GetConfig` on the other host has `Symlink` set
then it has `Symlink` set on darwin. -/
theorem darwin_only_relaxes (goos : String) (r₁ r₂ : RangeOrder) (name : String)
    (h : goos ≠ "darwin") :
    ((GetConfig (ready "darwin" r₁) name).Error = true →
      (GetConfig (ready goos r₂) name).Error = true) ∧
    ((GetConfig (ready goos r₂) name).Symlink = true →
      (GetConfig (ready "darwin" r₁) name).Symlink = true) := by
  have hoff : ready goos r₂ = Configuration := init_of_ne_darwin goos r₂ _ h
  have hd := get?_init_darwin r₁ Configuration name
  rw [hoff]
  by_cases hn : name = "xcrun" ∨ name = "sw_vers"
  · have ha : GetConfig (ready "darwin" r₁) name = Allowed :=
      getConfig_eq_of_get? (by rw [ready, hd]; simp [hn])
    rw [ha]
    exact ⟨fun he => by simp [Allowed] at he, fun _ => rfl⟩
  · cases hl : get? Configuration name with
    | none =>
      have hm : GetConfig (ready "darwin" r₁) name = Missing :=
        getConfig_eq_of_get?_none (by rw [ready, hd]; simp [hn, hl])
      rw [hm, getConfig_eq_of_get?_none hl]
      exact ⟨fun _ => rfl, fun _ => rfl⟩
    | some c =>
      have hr : GetConfig (ready "darwin" r₁) name = relax c :=
        getConfig_eq_of_get? (by rw [ready, hd]; simp [hn, hl])
      rw [hr, getConfig_eq_of_get? hl]
      by_cases hf : c.LinuxOnlyPrebuilt = true
      · simp [relax, hf, Allowed]
      · simp [relax, hf]

/-- Witness of C14 at `clang`, comparing darwin with a linux host. -/
theorem darwin_only_relaxes_witness :
    "linux" ≠ "darwin" ∧
      (GetConfig (ready "darwin" reverseOrder) "clang").Error = true ∧
      (GetConfig (ready "linux" storedOrder) "clang").Error = true :=
  have hd : (GetConfig (ready "darwin" reverseOrder) "clang").Error = true := by
    rw [getConfig_eq_of_get?
      (get?_ready_of_unflagged "darwin" reverseOrder (c := Forbidden) (by decide) rfl)]
    rfl
  ⟨by decide, hd,
    (darwin_only_relaxes "linux" reverseOrder storedOrder "clang" (by decide)).1 hd⟩

/-- C15: only the five named presets occur.  On every host every stored record
is one of `Allowed`, `Forbidden`, `Log` and `LinuxOnlyPrebuilt`, and for every
name `GetConfig` is one of `Allowed`, `Forbidden`, `Log`, `Missing` and
`LinuxOnlyPrebuilt`; so a result with `Error` set has `Log` set, and a result
with `Symlink` clear has `Error` set. -/
theorem getConfig_is_preset (goos : String) (r : RangeOrder) (name : String) :
    (∀ c, get? (ready goos r) name = some c →
      c = Allowed ∨ c = Forbidden ∨ c = Log ∨ c = LinuxOnlyPrebuilt) ∧
    (GetConfig (ready goos r) name = Allowed ∨ GetConfig (ready goos r) name = Forbidden ∨
      GetConfig (ready goos r) name = Log ∨ GetConfig (ready goos r) name = Missing ∨
      GetConfig (ready goos r) name = LinuxOnlyPrebuilt) ∧
    ((GetConfig (ready goos r) name).Error = true →
      (GetConfig (ready goos r) name).Log = true) ∧
    ((GetConfig (ready goos r) name).Symlink = false →
      (GetConfig (ready goos r) name).Error = true) := by
  have hfive : GetConfig (ready goos r) name = Allowed ∨
      GetConfig (ready goos r) name = Forbidden ∨
      GetConfig (ready goos r) name = Log ∨ GetConfig (ready goos r) name = Missing ∨
      GetConfig (ready goos r) name = LinuxOnlyPrebuilt := by
    cases hg : get? (ready goos r) name with
    | none => rw [getConfig_eq_of_get?_none hg]; simp
    | some c =>
      rw [getConfig_eq_of_get? hg]
      rcases ready_record_preset goos r hg with rfl | rfl | rfl | rfl <;> simp
  refine ⟨fun c hc => ready_record_preset goos r hc, hfive, ?_, ?_⟩
  · rcases hfive with h | h | h | h | h <;> rw [h] <;> decide
  · rcases hfive with h | h | h | h | h <;> rw [h] <;> decide

/-- Witness of C15 at `clang` on a darwin host: `Symlink` is clear and `Error` is set. -/
theorem getConfig_is_preset_witness :
    (GetConfig (ready "darwin" reverseOrder) "clang").Symlink = false ∧
      (GetConfig (ready "darwin" reverseOrder) "clang").Error = true :=
  have hs : (GetConfig (ready "darwin" reverseOrder) "clang").Symlink = false := by
    rw [getConfig_eq_of_get?
      (get?_ready_of_unflagged "darwin" reverseOrder (c := Forbidden) (by decide) rfl)]
    rfl
  ⟨hs, (getConfig_is_preset "darwin" reverseOrder "clang").2.2.2 hs⟩

end paths
